import Mathlib

/-!
Verification of a finite-difference solver for linear second-order ODEs.

The program solves a(x)·f″(x) + b(x)·f′(x) + c(x)·f(x) = 0 on [x_min, x_max]
with Dirichlet boundary conditions, by discretising onto a uniform interior
grid and solving the resulting tridiagonal system with the Thomas algorithm.

The embedding models the real-number arithmetic of the program over ℚ.
Machine-level failures (out-of-bounds vector indexing, unwrapping an absent
optional value) are modelled by `Option`: a `none` result marks a run that
panics.
-/

/-- A row of the tridiagonal system: ⟨lower, main, upper, rhs⟩, with the
lower and upper neighbour coefficients optional, exactly as in the source. -/
abbrev Row : Type := Option ℚ × ℚ × Option ℚ × ℚ

/-- Step size for a grid of `x_discrete` nodes on [x_min, x_max]:
(x_max − x_min)/(x_discrete − 1). -/
def compute_dx (x_discrete : ℕ) (x_min x_max : ℚ) : ℚ :=
  (x_max - x_min) / ((x_discrete : ℚ) - 1)

/-- Coordinate of node `index`: x_min + index·dx. -/
def compute_x (index : ℕ) (dx x_min : ℚ) : ℚ :=
  x_min + (index : ℚ) * dx

/-- One iteration of the forward sweep of the Thomas algorithm, processing
the row at position `index` of the input stream.  The state is the pair
(upper_v, solve_v) of the two growing vectors.  The reads of
`upper_v[index-1]` and `solve_v[index-1]` and the unwrap of an absent upper
coefficient fail (the source panics there), which `Option` records as
`none`. -/
def thomasStep (st : List ℚ × List ℚ) (irow : ℕ × Row) : Option (List ℚ × List ℚ) :=
  match irow.2.1 with
  | some low => do
      let upper_v_prev ← st.1[irow.1 - 1]?
      let solve_v_prev ← st.2[irow.1 - 1]?
      let upper_v2 :=
        match irow.2.2.2.1 with
        | some up => st.1 ++ [up / (irow.2.2.1 - upper_v_prev * low)]
        | none => st.1
      pure (upper_v2,
        st.2 ++ [(irow.2.2.2.2 - low * solve_v_prev) / (irow.2.2.1 - upper_v_prev * low)])
  | none => do
      let up ← irow.2.2.2.1
      pure (st.1 ++ [up / irow.2.2.1], st.2 ++ [irow.2.2.2.2 / irow.2.2.1])

/-- The forward sweep: fold `thomasStep` over the enumerated row stream,
starting from two empty vectors. -/
def thomasForward (rows : List Row) : Option (List ℚ × List ℚ) :=
  (rows.enum).foldlM thomasStep ([], [])

/-- One iteration of the back-substitution loop:
solve_v[index] := solve_v[index] − cprime·solve_v[index+1].  The read of
`solve_v[index+1]` fails (the source panics) when out of range. -/
def backStep (solve_v : List ℚ) (ic : ℕ × ℚ) : Option (List ℚ) := do
  let cur ← solve_v[ic.1]?
  let nxt ← solve_v[ic.1 + 1]?
  pure (solve_v.set ic.1 (cur - ic.2 * nxt))

/-- The Thomas algorithm of the source: forward sweep over the row stream,
then back substitution in place, iterating over the reversed enumeration of
the vector of modified upper coefficients. -/
def thomas_algorithm (rows : List Row) : Option (List ℚ) := do
  let st ← thomasForward rows
  (st.1.enum).reverse.foldlM backStep st.2

/-- The closure `get_upper_coef` of `solve_ode`: at node `index`,
A(x)/dx² + B(x)/(2·dx) with x = compute_x index dx x_min. -/
def get_upper_coef (second_deriv_coef first_deriv_coef : ℚ → ℚ) (x_min dx : ℚ)
    (index : ℕ) : ℚ :=
  second_deriv_coef (compute_x index dx x_min) / dx ^ 2 +
    first_deriv_coef (compute_x index dx x_min) / (dx * 2)

/-- The closure `get_lower_coef` of `solve_ode`: at node `index`,
A(x)/dx² − B(x)/(2·dx) with x = compute_x index dx x_min. -/
def get_lower_coef (second_deriv_coef first_deriv_coef : ℚ → ℚ) (x_min dx : ℚ)
    (index : ℕ) : ℚ :=
  second_deriv_coef (compute_x index dx x_min) / dx ^ 2 -
    first_deriv_coef (compute_x index dx x_min) / (dx * 2)

/-- The closure `get_main_coef` of `solve_ode`: at node `index`,
C(x) − 2·A(x)/dx² with x = compute_x index dx x_min. -/
def get_main_coef (second_deriv_coef fn_coef : ℚ → ℚ) (x_min dx : ℚ)
    (index : ℕ) : ℚ :=
  fn_coef (compute_x index dx x_min) -
    second_deriv_coef (compute_x index dx x_min) * 2 / dx ^ 2

/-- The row stream `diag` built by `solve_ode` for the interior indices
1 … num_steps, given the step size `dx` the caller computed. -/
def ode_rows (second_deriv_coef first_deriv_coef fn_coef : ℚ → ℚ)
    (initial_condition_lower initial_condition_upper x_min : ℚ)
    (num_steps : ℕ) (dx : ℚ) : List Row :=
  (List.range' 1 num_steps).map (fun index =>
    if index = 1 then
      (none, get_main_coef second_deriv_coef fn_coef x_min dx index,
        some (get_upper_coef second_deriv_coef first_deriv_coef x_min dx (index + 1)),
        -initial_condition_lower *
          get_lower_coef second_deriv_coef first_deriv_coef x_min dx index)
    else if index = num_steps then
      (some (get_lower_coef second_deriv_coef first_deriv_coef x_min dx (index - 1)),
        get_main_coef second_deriv_coef fn_coef x_min dx index, none,
        -initial_condition_upper *
          get_upper_coef second_deriv_coef first_deriv_coef x_min dx index)
    else
      (some (get_lower_coef second_deriv_coef first_deriv_coef x_min dx (index - 1)),
        get_main_coef second_deriv_coef fn_coef x_min dx index,
        some (get_upper_coef second_deriv_coef first_deriv_coef x_min dx (index + 1)), 0))

/-- The exported solver: compute dx from num_steps + 2 total nodes, build the
row stream and hand it to the Thomas algorithm. -/
def solve_ode (second_deriv_coef first_deriv_coef fn_coef : ℚ → ℚ)
    (initial_condition_lower initial_condition_upper x_min x_max : ℚ)
    (num_steps : ℕ) : Option (List ℚ) :=
  thomas_algorithm
    (ode_rows second_deriv_coef first_deriv_coef fn_coef
      initial_condition_lower initial_condition_upper x_min num_steps
      (compute_dx (num_steps + 2) x_min x_max))

/-!
Specification-side definitions.  These are written from the words of the
spec (the forward-sweep and back-substitution recurrences, the per-row
coefficient formulas, the row-shape invariant), to be compared with the
definitions above that are translated from the source.
-/

/-- A well-formed input of length ≥ 2 for the tridiagonal solver: a first
row (m₀, u₀, r₀) with no lower, middle rows (ℓ, m, u, r) with both
neighbours, and a last row (ℓ, m, r) with no upper. -/
def mkRows (first : ℚ × ℚ × ℚ) (mid : List (ℚ × ℚ × ℚ × ℚ)) (lst : ℚ × ℚ × ℚ) :
    List Row :=
  (none, first.1, some first.2.1, first.2.2) ::
    (mid.map (fun row => (some row.1, row.2.1, some row.2.2.1, row.2.2.2)) ++
      [(some lst.1, lst.2.1, none, lst.2.2)])

/-- Modelled from the spec: the forward-sweep recurrence for the rows with
both neighbours.  Carrying the previous (c′, d′) pair, each row (ℓ, m, u, r)
produces denom = m − ℓ·c′, c′ = u/denom, d′ = (r − ℓ·d′_prev)/denom.
Returns the list of produced pairs together with the final pair. -/
def spec_forward : ℚ → ℚ → List (ℚ × ℚ × ℚ × ℚ) → List (ℚ × ℚ) × (ℚ × ℚ)
  | c, d, [] => ([], (c, d))
  | c, d, (l, m, u, r) :: rest =>
      let denom := m - l * c
      let rec1 := spec_forward (u / denom) ((r - l * d) / denom) rest
      ((u / denom, (r - l * d) / denom) :: rec1.1, rec1.2)

/-- Modelled from the spec: back substitution.  Given the (c′, d′) pairs of
the rows 0 … n−2 and y_{n−1} = d′_{n−1}, produce y_k = d′_k − c′_k·y_{k+1}
from the bottom up. -/
def spec_back : List (ℚ × ℚ) → ℚ → List ℚ
  | [], ylast => [ylast]
  | (c, d) :: rest, ylast => (d - c * (spec_back rest ylast).headI) :: spec_back rest ylast

/-- Modelled from the spec: the full Thomas algorithm on a well-formed input
of length ≥ 2.  c′₀ = u₀/m₀ and d′₀ = r₀/m₀; the middle rows follow the
forward recurrence; the last row (no upper) contributes only
d′_{n−1} = (r − ℓ·d′_{n−2})/(m − ℓ·c′_{n−2}); back substitution finishes. -/
def spec_thomas (first : ℚ × ℚ × ℚ) (mid : List (ℚ × ℚ × ℚ × ℚ)) (lst : ℚ × ℚ × ℚ) :
    List ℚ :=
  let c0 := first.2.1 / first.1
  let d0 := first.2.2 / first.1
  let swept := spec_forward c0 d0 mid
  let dn := (lst.2.2 - lst.1 * swept.2.2) / (lst.2.1 - lst.1 * swept.2.1)
  spec_back ((c0, d0) :: swept.1) dn

/-- Modelled from the spec: the row the discretiser should emit for interior
index k (1-based, k = 1 … n): main = C(x_k) − 2·A(x_k)/Δx²; lower, present
for k > 1, is A(x_{k−1})/Δx² − B(x_{k−1})/(2·Δx); upper, present for k < n,
is A(x_{k+1})/Δx² + B(x_{k+1})/(2·Δx); rhs folds the boundary conditions in
at k = 1 and k = n and is 0 in between. -/
def spec_row (A B C : ℚ → ℚ) (alpha beta x_min dx : ℚ) (n k : ℕ) : Row :=
  let x := fun (i : ℕ) => x_min + (i : ℚ) * dx
  let lower := if 1 < k then some (A (x (k - 1)) / dx ^ 2 - B (x (k - 1)) / (2 * dx)) else none
  let main := C (x k) - 2 * A (x k) / dx ^ 2
  let upper := if k < n then some (A (x (k + 1)) / dx ^ 2 + B (x (k + 1)) / (2 * dx)) else none
  let rhs :=
    if k = 1 then -alpha * (A (x 1) / dx ^ 2 - B (x 1) / (2 * dx))
    else if k = n then -beta * (A (x n) / dx ^ 2 + B (x n) / (2 * dx))
    else 0
  (lower, main, upper, rhs)

/-- The row-shape invariant of the spec: lower is absent iff the row is the
first, and upper is absent iff the row is the last. -/
def firstLastShape (rows : List Row) : Prop :=
  ∀ i row, rows[i]? = some row →
    (row.1 = none ↔ i = 0) ∧ (row.2.2.1 = none ↔ i = rows.length - 1)

/-- Componentwise linear combination α·u + β·v of two vectors. -/
def lincomb (alpha beta : ℚ) (u v : List ℚ) : List ℚ :=
  List.zipWith (fun a b => alpha * a + beta * b) u v

/-- Structural row bundle for comparing two solver runs that differ only in
the right-hand sides: the shared (lower, main, upper) part plus two rhs. -/
abbrev Row2 : Type := (Option ℚ × ℚ × Option ℚ) × ℚ × ℚ

/-- Rebuild a row from a bundle, taking a·rhs₁ + b·rhs₂ as right-hand side. -/
def projComb (a b : ℚ) (row : Row2) : Row :=
  (row.1.1, row.1.2.1, row.1.2.2, a * row.2.1 + b * row.2.2)

/-- Rebuild a row from a bundle, taking the first right-hand side. -/
def projFst (row : Row2) : Row :=
  (row.1.1, row.1.2.1, row.1.2.2, row.2.1)

/-- Rebuild a row from a bundle, taking the second right-hand side. -/
def projSnd (row : Row2) : Row :=
  (row.1.1, row.1.2.1, row.1.2.2, row.2.2)

/-- The bundled row stream of the discretiser: the structural coefficients
together with the rhs for boundary values (1, 0) and those for (0, 1). -/
def odeRows2 (second_deriv_coef first_deriv_coef fn_coef : ℚ → ℚ)
    (x_min : ℚ) (num_steps : ℕ) (dx : ℚ) : List Row2 :=
  (List.range' 1 num_steps).map (fun index =>
    if index = 1 then
      ((none, get_main_coef second_deriv_coef fn_coef x_min dx index,
        some (get_upper_coef second_deriv_coef first_deriv_coef x_min dx (index + 1))),
        -(get_lower_coef second_deriv_coef first_deriv_coef x_min dx index), 0)
    else if index = num_steps then
      ((some (get_lower_coef second_deriv_coef first_deriv_coef x_min dx (index - 1)),
        get_main_coef second_deriv_coef fn_coef x_min dx index, none),
        0, -(get_upper_coef second_deriv_coef first_deriv_coef x_min dx index))
    else
      ((some (get_lower_coef second_deriv_coef first_deriv_coef x_min dx (index - 1)),
        get_main_coef second_deriv_coef fn_coef x_min dx index,
        some (get_upper_coef second_deriv_coef first_deriv_coef x_min dx (index + 1))),
        0, 0))

/-!
Helper lemmas: characterising the forward sweep and the back substitution
on well-formed input.
-/

theorem spec_forward_fst_length (mid : List (ℚ × ℚ × ℚ × ℚ)) :
    ∀ c d : ℚ, ((spec_forward c d mid).1).length = mid.length := by
  induction mid with
  | nil => intro c d; simp [spec_forward]
  | cons row rest ih =>
    intro c d
    obtain ⟨l, m, u, r⟩ := row
    simp [spec_forward, ih]

theorem spec_forward_last_fst (mid : List (ℚ × ℚ × ℚ × ℚ)) :
    ∀ (c d : ℚ) (cs : List ℚ), cs.getLast? = some c →
      (cs ++ (spec_forward c d mid).1.map Prod.fst).getLast? =
        some (spec_forward c d mid).2.1 := by
  induction mid with
  | nil => intro c d cs hcs; simpa [spec_forward] using hcs
  | cons row rest ih =>
    intro c d cs hcs
    obtain ⟨l, m, u, r⟩ := row
    have h2 := ih (u / (m - l * c)) ((r - l * d) / (m - l * c)) (cs ++ [u / (m - l * c)])
      (List.getLast?_concat cs)
    simpa [spec_forward, List.append_assoc] using h2

theorem spec_forward_last_snd (mid : List (ℚ × ℚ × ℚ × ℚ)) :
    ∀ (c d : ℚ) (ds : List ℚ), ds.getLast? = some d →
      (ds ++ (spec_forward c d mid).1.map Prod.snd).getLast? =
        some (spec_forward c d mid).2.2 := by
  induction mid with
  | nil => intro c d ds hds; simpa [spec_forward] using hds
  | cons row rest ih =>
    intro c d ds hds
    obtain ⟨l, m, u, r⟩ := row
    have h2 := ih (u / (m - l * c)) ((r - l * d) / (m - l * c))
      (ds ++ [(r - l * d) / (m - l * c)]) (List.getLast?_concat ds)
    simpa [spec_forward, List.append_assoc] using h2

theorem getLast?_getElem? (l : List ℚ) (i : ℕ) (h : l.length = i) :
    l[i - 1]? = l.getLast? := by
  rw [List.getLast?_eq_getElem?, h]

theorem thomasStep_first (m u r : ℚ) :
    thomasStep ([], []) (0, (none, m, some u, r)) = some ([u / m], [r / m]) := by
  simp [thomasStep]

theorem thomasStep_mid (cs ds : List ℚ) (i : ℕ) (l m u r c d : ℚ)
    (hcs : cs.length = i) (hds : ds.length = i)
    (hc : cs.getLast? = some c) (hd : ds.getLast? = some d) :
    thomasStep (cs, ds) (i, (some l, m, some u, r)) =
      some (cs ++ [u / (m - l * c)], ds ++ [(r - l * d) / (m - l * c)]) := by
  have h1 : cs[i - 1]? = some c := by rw [getLast?_getElem? cs i hcs]; exact hc
  have h2 : ds[i - 1]? = some d := by rw [getLast?_getElem? ds i hds]; exact hd
  simp [thomasStep, h1, h2, mul_comm]

theorem thomasStep_last (cs ds : List ℚ) (i : ℕ) (l m r c d : ℚ)
    (hcs : cs.length = i) (hds : ds.length = i)
    (hc : cs.getLast? = some c) (hd : ds.getLast? = some d) :
    thomasStep (cs, ds) (i, (some l, m, none, r)) =
      some (cs, ds ++ [(r - l * d) / (m - l * c)]) := by
  have h1 : cs[i - 1]? = some c := by rw [getLast?_getElem? cs i hcs]; exact hc
  have h2 : ds[i - 1]? = some d := by rw [getLast?_getElem? ds i hds]; exact hd
  simp [thomasStep, h1, h2, mul_comm]

theorem fwd_mid (mid : List (ℚ × ℚ × ℚ × ℚ)) :
    ∀ (i : ℕ) (c d : ℚ) (cs ds : List ℚ),
      cs.length = i → ds.length = i → cs.getLast? = some c → ds.getLast? = some d →
      List.foldlM thomasStep ((cs, ds) : List ℚ × List ℚ)
        (List.enumFrom i
          (mid.map (fun row => ((some row.1, row.2.1, some row.2.2.1, row.2.2.2) : Row))))
      = some (cs ++ (spec_forward c d mid).1.map Prod.fst,
              ds ++ (spec_forward c d mid).1.map Prod.snd) := by
  induction mid with
  | nil => intro i c d cs ds _ _ _ _; simp [spec_forward]
  | cons row rest ih =>
    intro i c d cs ds hcs hds hc hd
    obtain ⟨l, m, u, r⟩ := row
    rw [List.map_cons, List.enumFrom_cons, List.foldlM_cons,
      thomasStep_mid cs ds i l m u r c d hcs hds hc hd]
    have hstep := ih (i + 1) (u / (m - l * c)) ((r - l * d) / (m - l * c))
      (cs ++ [u / (m - l * c)]) (ds ++ [(r - l * d) / (m - l * c)])
      (by simp [hcs]) (by simp [hds])
      (List.getLast?_concat cs) (List.getLast?_concat ds)
    simpa [spec_forward, List.append_assoc] using hstep

theorem forward_mkRows (first : ℚ × ℚ × ℚ) (mid : List (ℚ × ℚ × ℚ × ℚ)) (lst : ℚ × ℚ × ℚ) :
    thomasForward (mkRows first mid lst) =
      some ((first.2.1 / first.1) ::
          (spec_forward (first.2.1 / first.1) (first.2.2 / first.1) mid).1.map Prod.fst,
        ((first.2.2 / first.1) ::
          (spec_forward (first.2.1 / first.1) (first.2.2 / first.1) mid).1.map Prod.snd) ++
          [(lst.2.2 - lst.1 *
              (spec_forward (first.2.1 / first.1) (first.2.2 / first.1) mid).2.2) /
            (lst.2.1 - lst.1 *
              (spec_forward (first.2.1 / first.1) (first.2.2 / first.1) mid).2.1)]) := by
  obtain ⟨m0, u0, r0⟩ := first
  obtain ⟨ll, lm, lr⟩ := lst
  unfold thomasForward mkRows
  dsimp only
  rw [List.enum_cons, List.foldlM_cons, thomasStep_first]
  simp only [Option.bind_eq_bind, Option.some_bind]
  rw [List.enumFrom_append, List.foldlM_append]
  rw [fwd_mid mid 1 (u0 / m0) (r0 / m0) [u0 / m0] [r0 / m0] rfl rfl rfl rfl]
  simp only [Option.bind_eq_bind, Option.some_bind, List.length_map, List.enumFrom_cons, List.enumFrom_nil,
    List.foldlM_cons, List.foldlM_nil]
  have hlen1 : ([u0 / m0] ++ (spec_forward (u0 / m0) (r0 / m0) mid).1.map Prod.fst).length =
      1 + mid.length := by
    simp [spec_forward_fst_length, Nat.add_comm]
  have hlen2 : ([r0 / m0] ++ (spec_forward (u0 / m0) (r0 / m0) mid).1.map Prod.snd).length =
      1 + mid.length := by
    simp [spec_forward_fst_length, Nat.add_comm]
  have hc := spec_forward_last_fst mid (u0 / m0) (r0 / m0) [u0 / m0] rfl
  have hd := spec_forward_last_snd mid (u0 / m0) (r0 / m0) [r0 / m0] rfl
  rw [thomasStep_last _ _ (1 + mid.length) ll lm lr _ _ hlen1 hlen2 hc hd]
  simp

theorem spec_back_ne_nil (cds : List (ℚ × ℚ)) (yl : ℚ) : spec_back cds yl ≠ [] := by
  cases cds with
  | nil => simp [spec_back]
  | cons p rest => obtain ⟨c, d⟩ := p; simp [spec_back]

theorem spec_back_length (cds : List (ℚ × ℚ)) :
    ∀ yl, (spec_back cds yl).length = cds.length + 1 := by
  induction cds with
  | nil => intro yl; simp [spec_back]
  | cons p rest ih => intro yl; obtain ⟨c, d⟩ := p; simp [spec_back, ih]

theorem back_mid (cds : List (ℚ × ℚ)) :
    ∀ (pre : List ℚ) (dn : ℚ),
      List.foldlM backStep (pre ++ (cds.map Prod.snd ++ [dn]))
        (List.enumFrom pre.length (cds.map Prod.fst)).reverse
      = some (pre ++ spec_back cds dn) := by
  induction cds with
  | nil => intro pre dn; simp [spec_back]
  | cons p rest ih =>
    intro pre dn
    obtain ⟨c, d⟩ := p
    rw [List.map_cons, List.map_cons, List.enumFrom_cons, List.reverse_cons,
      List.foldlM_append]
    dsimp only
    have hsv : pre ++ (d :: List.map Prod.snd rest ++ [dn]) =
        (pre ++ [d]) ++ (List.map Prod.snd rest ++ [dn]) := by
      simp
    rw [List.cons_append] at hsv ⊢
    rw [hsv]
    have hlen : (pre ++ [d]).length = pre.length + 1 := by simp
    have h1 := ih (pre ++ [d]) dn
    rw [hlen] at h1
    rw [h1]
    simp only [Option.bind_eq_bind, Option.some_bind, List.foldlM_cons, List.foldlM_nil]
    obtain ⟨y, ys, hy⟩ := List.exists_cons_of_ne_nil (spec_back_ne_nil rest dn)
    rw [hy]
    have hread1 : ((pre ++ [d]) ++ (y :: ys))[pre.length]? = some d := by
      rw [List.append_assoc, List.getElem?_append_right (le_refl pre.length)]
      simp
    have hread2 : ((pre ++ [d]) ++ (y :: ys))[pre.length + 1]? = some y := by
      rw [List.append_assoc, List.getElem?_append_right (Nat.le_add_right _ _)]
      simp
    have hset : ((pre ++ [d]) ++ (y :: ys)).set pre.length (d - c * y) =
        pre ++ spec_back ((c, d) :: rest) dn := by
      rw [List.append_assoc, List.set_append_right _ _ (le_refl pre.length)]
      simp [spec_back, hy]
    simp only [backStep]
    rw [hread1, hread2]
    simp only [Option.bind_eq_bind, Option.some_bind]
    rw [hset]
    simp

theorem thomas_mkRows (first : ℚ × ℚ × ℚ) (mid : List (ℚ × ℚ × ℚ × ℚ)) (lst : ℚ × ℚ × ℚ) :
    thomas_algorithm (mkRows first mid lst) = some (spec_thomas first mid lst) := by
  rw [thomas_algorithm, forward_mkRows]
  simp only [Option.bind_eq_bind, Option.some_bind]
  have hmain := back_mid
    ((first.2.1 / first.1, first.2.2 / first.1) ::
      (spec_forward (first.2.1 / first.1) (first.2.2 / first.1) mid).1) []
    ((lst.2.2 - lst.1 *
        (spec_forward (first.2.1 / first.1) (first.2.2 / first.1) mid).2.2) /
      (lst.2.1 - lst.1 *
        (spec_forward (first.2.1 / first.1) (first.2.2 / first.1) mid).2.1))
  simp only [List.nil_append, List.map_cons, List.length_nil] at hmain
  simp only [List.enum]
  rw [hmain]
  rfl

/-- Claim C7: on the spec's scenario-1 input rows the Thomas algorithm
returns exactly [−11/7, 6/7, −15/14], each component within 10⁻⁶ of the
stated decimal expectations −1.5714286, 0.8571429, −1.0714286. -/
theorem thomas_algorithm_scenario_one :
    thomas_algorithm
      [(none, 3/10, some (9/10), 3/10),
       (some (4/10), 4/10, some (2/10), -(5/10)),
       (some (6/10), 2/10, none, 3/10)] = some [-11/7, 6/7, -15/14] ∧
    |(-11/7 : ℚ) - (-15714286/10000000)| ≤ 1/1000000 ∧
    |(6/7 : ℚ) - 8571429/10000000| ≤ 1/1000000 ∧
    |(-15/14 : ℚ) - (-10714286/10000000)| ≤ 1/1000000 := by
  refine ⟨?_, ?_, ?_, ?_⟩
  · norm_num [thomas_algorithm, thomasForward, thomasStep, backStep, List.enum, List.enumFrom]
  · rw [abs_le]; norm_num
  · rw [abs_le]; norm_num
  · rw [abs_le]; norm_num

/-- Claim C4: contrary to the spec, the solver does not return [r₀/m₀] on a
single row with both neighbours absent: the source unconditionally unwraps
the absent upper coefficient in the no-lower branch and panics (modelled as
`none`).  Shown here on the row ⟨—, 2, —, 6⟩, where the spec demands [3]. -/
theorem thomas_algorithm_single_row_none :
    thomas_algorithm [(none, 2, none, 6)] = none ∧ (6 : ℚ) / 2 = 3 := by
  constructor
  · norm_num [thomas_algorithm, thomasForward, thomasStep, List.enum, List.enumFrom]
  · norm_num

/-- Claim C8: with num_steps = 0 the discretiser produces the empty row
stream, the solver consumes it without failing, and solve_ode returns the
empty vector. -/
theorem solve_ode_zero_steps_empty (A B C : ℚ → ℚ) (a b lo hi dx : ℚ) :
    ode_rows A B C a b lo 0 dx = [] ∧ thomas_algorithm [] = some [] ∧
      solve_ode A B C a b lo hi 0 = some [] := by
  refine ⟨rfl, rfl, rfl⟩

/-- Claim C1, counterexample: at num_steps = 1 the solve does not return a
vector of length 1; the back-substitution loop indexes past the end of the
one-element solution vector and the run panics (modelled as `none`). -/
theorem solve_ode_length_fails_at_one :
    solve_ode (fun _ => 3/2) (fun _ => 5) (fun _ => 3/2) 0 1 0 1 1 = none := by
  norm_num [solve_ode, ode_rows, get_upper_coef, get_lower_coef, get_main_coef, compute_dx,
    compute_x, thomas_algorithm, thomasForward, thomasStep, backStep, List.range', List.enum,
    List.enumFrom]

/-- Claim C5, counterexample: at num_steps = 1 the single emitted row does
have an upper coefficient (the index = 1 branch fires and emits
upper = some …), contradicting the claimed invariant that it has neither
lower nor upper. -/
theorem ode_rows_shape_fails_at_one :
    (ode_rows (fun _ => 3/2) (fun _ => 5) (fun _ => 3/2) 2 3 0 1
        (compute_dx 3 0 1)).length = 1 ∧
    ((ode_rows (fun _ => 3/2) (fun _ => 5) (fun _ => 3/2) 2 3 0 1
        (compute_dx 3 0 1)).head?.bind (fun row => row.2.2.1)) ≠ none := by
  constructor
  · norm_num [ode_rows, get_upper_coef, get_lower_coef, get_main_coef, compute_dx, compute_x, List.range']
  · norm_num [ode_rows, get_upper_coef, get_lower_coef, get_main_coef, compute_dx, compute_x, List.range']
    simp

/-- Claim C10, counterexample: at num_steps = 1 the coefficient functions
are not evaluated only at interior nodes.  The two coefficient triples below
agree at the single interior node x₁ = 1/2 (the only coordinate of the form
x_min + k·Δx with 1 ≤ k ≤ 1), yet the emitted rows differ, because the
upper coefficient of the single row is evaluated at x₂ = x_max = 1, a
boundary node. -/
theorem coef_evaluated_at_boundary_at_one :
    (fun x : ℚ => if x = 1/2 then (1 : ℚ) else 2) (compute_x 1 (compute_dx 3 0 1) 0) =
      (fun _ : ℚ => (1 : ℚ)) (compute_x 1 (compute_dx 3 0 1) 0) ∧
    ode_rows (fun x => if x = 1/2 then 1 else 2) (fun _ => 0) (fun _ => 0) 0 1 0 1
        (compute_dx 3 0 1) ≠
      ode_rows (fun _ => 1) (fun _ => 0) (fun _ => 0) 0 1 0 1 (compute_dx 3 0 1) := by
  constructor
  · norm_num [compute_dx, compute_x]
  · norm_num [ode_rows, get_upper_coef, get_lower_coef, get_main_coef, compute_dx, compute_x, List.range']

/-!
Structural decomposition of the discretiser output for num_steps ≥ 2, and
the row-shape invariant.
-/

theorem mkRows_shape (first : ℚ × ℚ × ℚ) (mid : List (ℚ × ℚ × ℚ × ℚ)) (lst : ℚ × ℚ × ℚ) :
    firstLastShape (mkRows first mid lst) := by
  intro i row hrow
  have hlen : (mkRows first mid lst).length = mid.length + 2 := by simp [mkRows]
  rw [hlen]
  rw [mkRows] at hrow
  cases i with
  | zero =>
    rw [List.getElem?_cons_zero] at hrow
    obtain rfl := Option.some.injEq _ _ ▸ hrow.symm
    simp
  | succ j =>
    rw [List.getElem?_cons_succ] at hrow
    by_cases hj : j < mid.length
    · rw [List.getElem?_append_left (by simpa using hj)] at hrow
      rw [List.getElem?_map, List.getElem?_eq_getElem hj] at hrow
      obtain rfl := Option.some.injEq _ _ ▸ hrow.symm
      simp
      omega
    · have hj2 : j < mid.length + 1 := by
        by_contra hcon
        rw [List.getElem?_eq_none] at hrow
        · exact Option.noConfusion hrow
        · simp
          omega
      have hje : j = mid.length := by omega
      subst hje
      rw [List.getElem?_append_right (by simp)] at hrow
      simp at hrow
      obtain rfl := hrow.symm
      simp

theorem ode_rows_eq_mkRows (A B C : ℚ → ℚ) (a b lo dx : ℚ) (n : ℕ) (h : 2 ≤ n) :
    ode_rows A B C a b lo n dx =
      mkRows
        (get_main_coef A C lo dx 1, get_upper_coef A B lo dx 2,
          -a * get_lower_coef A B lo dx 1)
        ((List.range' 2 (n - 2)).map (fun k =>
          (get_lower_coef A B lo dx (k - 1), get_main_coef A C lo dx k,
            get_upper_coef A B lo dx (k + 1), 0)))
        (get_lower_coef A B lo dx (n - 1), get_main_coef A C lo dx n,
          -b * get_upper_coef A B lo dx n) := by
  have hne1 : n ≠ 1 := by omega
  have hrange : List.range' 1 n = 1 :: (List.range' 2 (n - 2) ++ [n]) := by
    have h1 : n = n - 2 + 1 + 1 := by omega
    conv_lhs => rw [h1]
    rw [List.range'_succ, List.range'_concat]
    have h2 : 2 + 1 * (n - 2) = n := by omega
    rw [h2]
  rw [ode_rows, mkRows, hrange, List.map_cons, List.map_append, List.map_map]
  dsimp only
  rw [if_pos rfl]
  congr 1
  congr 1
  · apply List.map_congr_left
    intro k hk
    rw [List.mem_range'_1] at hk
    have hk1 : k ≠ 1 := by omega
    have hkn : k ≠ n := by omega
    rw [if_neg hk1, if_neg hkn]
    rfl
  · simp [hne1]

theorem spec_thomas_length (first : ℚ × ℚ × ℚ) (mid : List (ℚ × ℚ × ℚ × ℚ)) (lst : ℚ × ℚ × ℚ) :
    (spec_thomas first mid lst).length = mid.length + 2 := by
  rw [spec_thomas]
  rw [spec_back_length]
  simp [spec_forward_fst_length]

/-- Claim C3: on every well-formed input of n ≥ 2 rows (first row lacking
lower, last lacking upper, all others having both, as produced by `mkRows`),
the Thomas algorithm returns exactly the vector given by the forward-sweep
recurrence c′₀ = u₀/m₀, d′₀ = r₀/m₀, denom = m_k − ℓ_k·c′_{k−1},
c′_k = u_k/denom, d′_k = (r_k − ℓ_k·d′_{k−1})/denom, followed by the back
substitution y_{n−1} = d′_{n−1}, y_k = d′_k − c′_k·y_{k+1}. -/
theorem thomas_algorithm_meets_sweep_spec (first : ℚ × ℚ × ℚ)
    (mid : List (ℚ × ℚ × ℚ × ℚ)) (lst : ℚ × ℚ × ℚ) :
    thomas_algorithm (mkRows first mid lst) = some (spec_thomas first mid lst) :=
  thomas_mkRows first mid lst

/-- Claim C1, amended: for every num_steps ≥ 2 (not ≥ 1: see the
counterexample at num_steps = 1), solve_ode returns a vector of exactly
num_steps entries. -/
theorem solve_ode_returns_num_steps_entries (A B C : ℚ → ℚ) (a b lo hi : ℚ)
    (n : ℕ) (h : 2 ≤ n) :
    (solve_ode A B C a b lo hi n).map List.length = some n := by
  rw [solve_ode, ode_rows_eq_mkRows A B C a b lo _ n h, thomas_mkRows]
  simp only [Option.map_some', spec_thomas_length, List.length_map, List.length_range',
    Option.some.injEq]
  omega

/-- Witness for C1's amended theorem at num_steps = 2. -/
theorem solve_ode_returns_num_steps_entries_witness :
    2 ≤ 2 ∧ (solve_ode (fun _ => 3/2) (fun _ => 5) (fun _ => 3/2)
      0 1 0 1 2).map List.length = some 2 :=
  ⟨le_refl 2,
    solve_ode_returns_num_steps_entries (fun _ => 3/2) (fun _ => 5) (fun _ => 3/2)
      0 1 0 1 2 (le_refl 2)⟩

/-- Claim C5, amended: for every num_steps ≥ 2 (the num_steps = 1 case
fails: the single row does have an upper) the emitted row stream has
num_steps rows, lower is absent iff the row is the first and upper is
absent iff the row is the last; main and rhs are always present (they are
non-optional by construction). -/
theorem ode_rows_shape_invariant (A B C : ℚ → ℚ) (a b lo dx : ℚ) (n : ℕ)
    (h : 2 ≤ n) :
    (ode_rows A B C a b lo n dx).length = n ∧
      firstLastShape (ode_rows A B C a b lo n dx) := by
  constructor
  · simp [ode_rows]
  · rw [ode_rows_eq_mkRows A B C a b lo dx n h]
    exact mkRows_shape _ _ _

/-- Witness for C5's amended theorem at num_steps = 3. -/
theorem ode_rows_shape_invariant_witness :
    2 ≤ 3 ∧ ((ode_rows (fun _ => 3/2) (fun _ => 5) (fun _ => 3/2)
        0 1 0 3 (compute_dx 5 0 1)).length = 3 ∧
      firstLastShape (ode_rows (fun _ => 3/2) (fun _ => 5) (fun _ => 3/2)
        0 1 0 3 (compute_dx 5 0 1))) :=
  ⟨by norm_num,
    ode_rows_shape_invariant (fun _ => 3/2) (fun _ => 5) (fun _ => 3/2)
      0 1 0 (compute_dx 5 0 1) 3 (by norm_num)⟩

/-- Claim C2: for num_steps ≥ 2 the emitted row at interior index k is
exactly the spec's row: main = C(x_k) − 2·A(x_k)/Δx²; lower (k > 1) =
A(x_{k−1})/Δx² − B(x_{k−1})/(2·Δx); upper (k < num_steps) =
A(x_{k+1})/Δx² + B(x_{k+1})/(2·Δx); rhs = −α·L₁ at k = 1,
−β·U_{num_steps} at k = num_steps and 0 in between — with L and U
evaluated at the neighbour node's coordinate. -/
theorem ode_rows_emit_spec_rows (A B C : ℚ → ℚ) (a b lo dx : ℚ) (n : ℕ)
    (h : 2 ≤ n) :
    ode_rows A B C a b lo n dx =
      (List.range' 1 n).map (spec_row A B C a b lo dx n) := by
  rw [ode_rows]
  apply List.map_congr_left
  intro k hk
  rw [List.mem_range'_1] at hk
  obtain ⟨hk1, hk2⟩ := hk
  by_cases he1 : k = 1
  · subst he1
    rw [if_pos rfl]
    simp only [spec_row]
    have hlt : 1 < n := by omega
    rw [if_neg (lt_irrefl 1), if_pos hlt]
    simp only [eq_self_iff_true, if_true, Prod.mk.injEq, Option.some.injEq]
    repeat' apply And.intro
    all_goals first
      | trivial
      | (simp only [get_main_coef, get_upper_coef, get_lower_coef, compute_x]; ring)
  · by_cases hen : k = n
    · subst hen
      rw [if_neg he1, if_pos rfl]
      simp only [spec_row]
      have hlt : 1 < k := by omega
      rw [if_pos hlt, if_neg (lt_irrefl k), if_neg he1]
      simp only [eq_self_iff_true, if_true, Prod.mk.injEq, Option.some.injEq]
      repeat' apply And.intro
      all_goals first
        | trivial
        | (simp only [get_main_coef, get_upper_coef, get_lower_coef, compute_x]; ring)
    · rw [if_neg he1, if_neg hen]
      simp only [spec_row]
      have hg1 : 1 < k := by omega
      have hgn : k < n := by omega
      rw [if_pos hg1, if_pos hgn, if_neg he1, if_neg hen]
      simp only [Prod.mk.injEq, Option.some.injEq]
      repeat' apply And.intro
      all_goals first
        | trivial
        | (simp only [get_main_coef, get_upper_coef, get_lower_coef, compute_x]; ring)

/-- Witness for C2's theorem at num_steps = 3. -/
theorem ode_rows_emit_spec_rows_witness :
    2 ≤ 3 ∧ ode_rows (fun _ => 3/2) (fun _ => 5) (fun _ => 3/2) 0 1 0 3
        (compute_dx 5 0 1) =
      (List.range' 1 3).map
        (spec_row (fun _ => 3/2) (fun _ => 5) (fun _ => 3/2) 0 1 0
          (compute_dx 5 0 1) 3) :=
  ⟨by norm_num,
    ode_rows_emit_spec_rows (fun _ => 3/2) (fun _ => 5) (fun _ => 3/2) 0 1 0
      (compute_dx 5 0 1) 3 (by norm_num)⟩

/-- Claim C9: dx(n, lo, hi) = (hi − lo)/(n − 1) for n ≥ 2; x_at(i, d, lo) =
lo + i·d; and solve_ode derives its step size as (x_max − x_min)/(num_steps
+ 1), i.e. compute_dx applied to num_steps + 2 total nodes. -/
theorem grid_utilities_and_step_size (A B C : ℚ → ℚ) (a b lo hi d : ℚ)
    (n m i : ℕ) (h : 2 ≤ n) :
    compute_dx n lo hi = (hi - lo) / ((n : ℚ) - 1) ∧
    compute_x i d lo = lo + (i : ℚ) * d ∧
    compute_dx (m + 2) lo hi = (hi - lo) / ((m : ℚ) + 1) ∧
    solve_ode A B C a b lo hi m =
      thomas_algorithm (ode_rows A B C a b lo m ((hi - lo) / ((m : ℚ) + 1))) := by
  have h3 : compute_dx (m + 2) lo hi = (hi - lo) / ((m : ℚ) + 1) := by
    rw [compute_dx]
    push_cast
    ring_nf
  refine ⟨rfl, rfl, h3, ?_⟩
  rw [solve_ode, h3]

/-- Witness for C9's theorem at n = 4, m = 3, i = 5, lo = 0, hi = 1. -/
theorem grid_utilities_and_step_size_witness :
    2 ≤ 4 ∧
    (compute_dx 4 0 1 = (1 - 0) / ((4 : ℚ) - 1) ∧
     compute_x 5 (1/2) 0 = 0 + (5 : ℚ) * (1/2) ∧
     compute_dx (3 + 2) 0 1 = (1 - 0) / ((3 : ℚ) + 1) ∧
     solve_ode (fun _ => 3/2) (fun _ => 5) (fun _ => 3/2) 0 1 0 1 3 =
       thomas_algorithm (ode_rows (fun _ => 3/2) (fun _ => 5) (fun _ => 3/2)
         0 1 0 3 ((1 - 0) / ((3 : ℚ) + 1)))) :=
  ⟨by norm_num,
    grid_utilities_and_step_size (fun _ => 3/2) (fun _ => 5) (fun _ => 3/2)
      0 1 0 1 (1/2) 4 3 5 (by norm_num)⟩

theorem ode_rows_congr (A B C A2 B2 C2 : ℚ → ℚ) (a b lo dx : ℚ) (n : ℕ)
    (h : 2 ≤ n)
    (hagree : ∀ k, 1 ≤ k → k ≤ n →
      A (compute_x k dx lo) = A2 (compute_x k dx lo) ∧
      B (compute_x k dx lo) = B2 (compute_x k dx lo) ∧
      C (compute_x k dx lo) = C2 (compute_x k dx lo)) :
    ode_rows A B C a b lo n dx = ode_rows A2 B2 C2 a b lo n dx := by
  have hcoef : ∀ j, 1 ≤ j → j ≤ n →
      get_upper_coef A B lo dx j = get_upper_coef A2 B2 lo dx j ∧
      get_lower_coef A B lo dx j = get_lower_coef A2 B2 lo dx j ∧
      get_main_coef A C lo dx j = get_main_coef A2 C2 lo dx j := by
    intro j hj1 hj2
    obtain ⟨hA, hB, hC⟩ := hagree j hj1 hj2
    refine ⟨?_, ?_, ?_⟩
    · rw [get_upper_coef, get_upper_coef, hA, hB]
    · rw [get_lower_coef, get_lower_coef, hA, hB]
    · rw [get_main_coef, get_main_coef, hA, hC]
  rw [ode_rows, ode_rows]
  apply List.map_congr_left
  intro k hk
  rw [List.mem_range'_1] at hk
  obtain ⟨hk1, hk2⟩ := hk
  by_cases he1 : k = 1
  · subst he1
    rw [if_pos rfl, if_pos rfl]
    obtain ⟨hu2, -, -⟩ := hcoef 2 (by omega) (by omega)
    obtain ⟨-, hl1, hm1⟩ := hcoef 1 (by omega) (by omega)
    rw [hm1, hl1]
    rw [show (1 : ℕ) + 1 = 2 from rfl, hu2]
  · by_cases hen : k = n
    · subst hen
      rw [if_neg he1, if_neg he1, if_pos rfl, if_pos rfl]
      obtain ⟨huk, -, hmk⟩ := hcoef k (by omega) (by omega)
      obtain ⟨-, hlp, -⟩ := hcoef (k - 1) (by omega) (by omega)
      rw [hmk, huk, hlp]
    · rw [if_neg he1, if_neg he1, if_neg hen, if_neg hen]
      obtain ⟨-, -, hmk⟩ := hcoef k (by omega) (by omega)
      obtain ⟨-, hlp, -⟩ := hcoef (k - 1) (by omega) (by omega)
      obtain ⟨hus, -, -⟩ := hcoef (k + 1) (by omega) (by omega)
      rw [hmk, hlp, hus]

/-- Claim C10, amended: for every num_steps ≥ 2 the coefficient callables
are consulted only at the interior node coordinates x_k = x_min + k·Δx with
1 ≤ k ≤ num_steps — two coefficient triples that agree there produce
identical solves.  At num_steps = 1 this fails: the upper coefficient of the
single row is evaluated at the boundary node x_max (see the
counterexample). -/
theorem solve_ode_uses_interior_nodes_only (A B C A2 B2 C2 : ℚ → ℚ)
    (a b lo hi : ℚ) (n : ℕ) (h : 2 ≤ n)
    (hagree : ∀ k, 1 ≤ k → k ≤ n →
      A (compute_x k (compute_dx (n + 2) lo hi) lo) =
        A2 (compute_x k (compute_dx (n + 2) lo hi) lo) ∧
      B (compute_x k (compute_dx (n + 2) lo hi) lo) =
        B2 (compute_x k (compute_dx (n + 2) lo hi) lo) ∧
      C (compute_x k (compute_dx (n + 2) lo hi) lo) =
        C2 (compute_x k (compute_dx (n + 2) lo hi) lo)) :
    solve_ode A B C a b lo hi n = solve_ode A2 B2 C2 a b lo hi n := by
  rw [solve_ode, solve_ode, ode_rows_congr A B C A2 B2 C2 a b lo _ n h hagree]

/-- Witness for C10's amended theorem: at num_steps = 2 on [0, 1] the
interior nodes are 1/3 and 2/3; a second-derivative coefficient that
differs only at 0 gives the same solve. -/
theorem solve_ode_uses_interior_nodes_only_witness :
    2 ≤ 2 ∧ solve_ode (fun _ => 1) (fun _ => 1) (fun _ => 1) 0 1 0 1 2 =
      solve_ode (fun x => if x = 0 then 5 else 1) (fun _ => 1) (fun _ => 1)
        0 1 0 1 2 := by
  refine ⟨le_refl 2, ?_⟩
  apply solve_ode_uses_interior_nodes_only (fun _ => 1) (fun _ => 1) (fun _ => 1)
    (fun x => if x = 0 then 5 else 1) (fun _ => 1) (fun _ => 1) 0 1 0 1 2 (le_refl 2)
  intro k h1 h2
  have hk : k = 1 ∨ k = 2 := by omega
  rcases hk with hk | hk <;> subst hk <;>
    refine ⟨?_, rfl, rfl⟩ <;> norm_num [compute_x, compute_dx]

/-!
Linearity of the solver in the right-hand sides, in preparation for the
linearity-in-boundary-conditions property.
-/

theorem lincomb_append_single (al be : ℚ) (u v : List ℚ) (x y : ℚ)
    (h : u.length = v.length) :
    lincomb al be (u ++ [x]) (v ++ [y]) = lincomb al be u v ++ [al * x + be * y] := by
  rw [lincomb, lincomb, List.zipWith_append _ _ _ _ _ h]
  rfl

theorem lincomb_set (al be : ℚ) : ∀ (u v : List ℚ) (j : ℕ) (x y : ℚ),
    lincomb al be (u.set j x) (v.set j y) = (lincomb al be u v).set j (al * x + be * y) := by
  intro u
  induction u with
  | nil => intro v j x y; simp [lincomb]
  | cons hu tu ih =>
    intro v j x y
    cases v with
    | nil => simp [lincomb]
    | cons hv tv =>
      cases j with
      | zero => simp [lincomb]
      | succ j2 =>
        simp only [lincomb, List.set_cons_succ, List.zipWith_cons_cons]
        rw [← lincomb, ← lincomb, ih tv j2 x y]

theorem fwd_linear (al be : ℚ) (rows : List Row2) :
    ∀ (i : ℕ) (cs ds1 ds2 : List ℚ), ds1.length = ds2.length →
      (List.foldlM thomasStep ((cs, ds1) : List ℚ × List ℚ)
          (List.enumFrom i (rows.map projFst)) = none ∧
        List.foldlM thomasStep ((cs, ds2) : List ℚ × List ℚ)
          (List.enumFrom i (rows.map projSnd)) = none ∧
        List.foldlM thomasStep ((cs, lincomb al be ds1 ds2) : List ℚ × List ℚ)
          (List.enumFrom i (rows.map (projComb al be))) = none) ∨
      (∃ cs2 e1 e2, e1.length = e2.length ∧
        List.foldlM thomasStep ((cs, ds1) : List ℚ × List ℚ)
          (List.enumFrom i (rows.map projFst)) = some (cs2, e1) ∧
        List.foldlM thomasStep ((cs, ds2) : List ℚ × List ℚ)
          (List.enumFrom i (rows.map projSnd)) = some (cs2, e2) ∧
        List.foldlM thomasStep ((cs, lincomb al be ds1 ds2) : List ℚ × List ℚ)
          (List.enumFrom i (rows.map (projComb al be))) = some (cs2, lincomb al be e1 e2)) := by
  induction rows with
  | nil =>
    intro i cs ds1 ds2 hlen
    right
    exact ⟨cs, ds1, ds2, hlen, by simp, by simp, by simp⟩
  | cons row rest ih =>
    intro i cs ds1 ds2 hlen
    obtain ⟨⟨lopt, m, uopt⟩, r1, r2⟩ := row
    simp only [List.map_cons, List.enumFrom_cons, List.foldlM_cons]
    dsimp only [projFst, projSnd, projComb]
    cases lopt with
    | none =>
      cases uopt with
      | none =>
        left
        refine ⟨?_, ?_, ?_⟩ <;> simp [thomasStep]
      | some u =>
        have s1 : thomasStep (cs, ds1) (i, (none, m, some u, r1)) =
            some (cs ++ [u / m], ds1 ++ [r1 / m]) := rfl
        have s2 : thomasStep (cs, ds2) (i, (none, m, some u, r2)) =
            some (cs ++ [u / m], ds2 ++ [r2 / m]) := rfl
        have sc : thomasStep (cs, lincomb al be ds1 ds2) (i, (none, m, some u, al * r1 + be * r2)) =
            some (cs ++ [u / m], lincomb al be ds1 ds2 ++ [(al * r1 + be * r2) / m]) := rfl
        rw [s1, s2, sc]
        simp only [Option.bind_eq_bind, Option.some_bind]
        have hpush : lincomb al be ds1 ds2 ++ [(al * r1 + be * r2) / m] =
            lincomb al be (ds1 ++ [r1 / m]) (ds2 ++ [r2 / m]) := by
          rw [lincomb_append_single al be ds1 ds2 _ _ hlen]
          congr 2
          ring
        rw [hpush]
        exact ih (i + 1) (cs ++ [u / m]) (ds1 ++ [r1 / m]) (ds2 ++ [r2 / m]) (by simp [hlen])
    | some l =>
      cases hcp : cs[i - 1]? with
      | none =>
        left
        refine ⟨?_, ?_, ?_⟩ <;> simp [thomasStep, hcp]
      | some cp =>
        cases hd1 : ds1[i - 1]? with
        | none =>
          have hd2 : ds2[i - 1]? = none := by
            rw [List.getElem?_eq_none_iff] at hd1 ⊢
            omega
          have hdc : (lincomb al be ds1 ds2)[i - 1]? = none := by
            rw [List.getElem?_eq_none_iff, lincomb, List.length_zipWith]
            rw [List.getElem?_eq_none_iff] at hd1
            omega
          left
          refine ⟨?_, ?_, ?_⟩
          · simp [thomasStep, hcp, hd1]
          · simp [thomasStep, hcp, hd2]
          · simp [thomasStep, hcp, hdc]
        | some d1 =>
          have hlt1 : i - 1 < ds1.length := by
            rcases List.getElem?_eq_some_iff.mp hd1 with ⟨hb, -⟩
            exact hb
          have hlt2 : i - 1 < ds2.length := by omega
          obtain ⟨d2, hd2⟩ : ∃ y, ds2[i - 1]? = some y := by
            rw [List.getElem?_eq_getElem hlt2]
            exact ⟨_, rfl⟩
          have hdc : (lincomb al be ds1 ds2)[i - 1]? = some (al * d1 + be * d2) := by
            rw [lincomb, List.getElem?_zipWith, hd1, hd2]
          have hpush : lincomb al be ds1 ds2 ++
              [(al * r1 + be * r2 - l * (al * d1 + be * d2)) / (m - cp * l)] =
              lincomb al be (ds1 ++ [(r1 - l * d1) / (m - cp * l)])
                (ds2 ++ [(r2 - l * d2) / (m - cp * l)]) := by
            rw [lincomb_append_single al be ds1 ds2 _ _ hlen]
            congr 2
            ring
          cases uopt with
          | none =>
            have s1 : thomasStep (cs, ds1) (i, (some l, m, none, r1)) =
                some (cs, ds1 ++ [(r1 - l * d1) / (m - cp * l)]) := by
              simp [thomasStep, hcp, hd1]
            have s2 : thomasStep (cs, ds2) (i, (some l, m, none, r2)) =
                some (cs, ds2 ++ [(r2 - l * d2) / (m - cp * l)]) := by
              simp [thomasStep, hcp, hd2]
            have sc : thomasStep (cs, lincomb al be ds1 ds2)
                (i, (some l, m, none, al * r1 + be * r2)) =
                some (cs, lincomb al be ds1 ds2 ++
                  [(al * r1 + be * r2 - l * (al * d1 + be * d2)) / (m - cp * l)]) := by
              simp [thomasStep, hcp, hdc]
            rw [s1, s2, sc]
            simp only [Option.bind_eq_bind, Option.some_bind]
            rw [hpush]
            exact ih (i + 1) cs
              (ds1 ++ [(r1 - l * d1) / (m - cp * l)])
              (ds2 ++ [(r2 - l * d2) / (m - cp * l)]) (by simp [hlen])
          | some up =>
            have s1 : thomasStep (cs, ds1) (i, (some l, m, some up, r1)) =
                some (cs ++ [up / (m - cp * l)],
                  ds1 ++ [(r1 - l * d1) / (m - cp * l)]) := by
              simp [thomasStep, hcp, hd1]
            have s2 : thomasStep (cs, ds2) (i, (some l, m, some up, r2)) =
                some (cs ++ [up / (m - cp * l)],
                  ds2 ++ [(r2 - l * d2) / (m - cp * l)]) := by
              simp [thomasStep, hcp, hd2]
            have sc : thomasStep (cs, lincomb al be ds1 ds2)
                (i, (some l, m, some up, al * r1 + be * r2)) =
                some (cs ++ [up / (m - cp * l)], lincomb al be ds1 ds2 ++
                  [(al * r1 + be * r2 - l * (al * d1 + be * d2)) / (m - cp * l)]) := by
              simp [thomasStep, hcp, hdc]
            rw [s1, s2, sc]
            simp only [Option.bind_eq_bind, Option.some_bind]
            rw [hpush]
            exact ih (i + 1) (cs ++ [up / (m - cp * l)])
              (ds1 ++ [(r1 - l * d1) / (m - cp * l)])
              (ds2 ++ [(r2 - l * d2) / (m - cp * l)]) (by simp [hlen])

theorem back_linear (al be : ℚ) (ics : List (ℕ × ℚ)) :
    ∀ (ds1 ds2 : List ℚ), ds1.length = ds2.length →
      (List.foldlM backStep ds1 ics = none ∧ List.foldlM backStep ds2 ics = none ∧
        List.foldlM backStep (lincomb al be ds1 ds2) ics = none) ∨
      (∃ e1 e2, e1.length = e2.length ∧
        List.foldlM backStep ds1 ics = some e1 ∧ List.foldlM backStep ds2 ics = some e2 ∧
        List.foldlM backStep (lincomb al be ds1 ds2) ics = some (lincomb al be e1 e2)) := by
  induction ics with
  | nil =>
    intro ds1 ds2 hlen
    right
    exact ⟨ds1, ds2, hlen, by simp, by simp, by simp⟩
  | cons ic rest ih =>
    intro ds1 ds2 hlen
    obtain ⟨j, c⟩ := ic
    simp only [List.foldlM_cons]
    cases hc1 : ds1[j]? with
    | none =>
      have hc2 : ds2[j]? = none := by
        rw [List.getElem?_eq_none_iff] at hc1 ⊢
        omega
      have hcc : (lincomb al be ds1 ds2)[j]? = none := by
        rw [List.getElem?_eq_none_iff, lincomb, List.length_zipWith]
        rw [List.getElem?_eq_none_iff] at hc1
        omega
      left
      refine ⟨?_, ?_, ?_⟩
      · simp [backStep, hc1]
      · simp [backStep, hc2]
      · simp [backStep, hcc]
    | some c1 =>
      have hlt1 : j < ds1.length := by
        rcases List.getElem?_eq_some_iff.mp hc1 with ⟨hb, -⟩
        exact hb
      have hlt2 : j < ds2.length := by omega
      obtain ⟨c2, hc2⟩ : ∃ y, ds2[j]? = some y := by
        rw [List.getElem?_eq_getElem hlt2]
        exact ⟨_, rfl⟩
      have hcc : (lincomb al be ds1 ds2)[j]? = some (al * c1 + be * c2) := by
        rw [lincomb, List.getElem?_zipWith, hc1, hc2]
      cases hn1 : ds1[j + 1]? with
      | none =>
        have hn2 : ds2[j + 1]? = none := by
          rw [List.getElem?_eq_none_iff] at hn1 ⊢
          omega
        have hnc : (lincomb al be ds1 ds2)[j + 1]? = none := by
          rw [List.getElem?_eq_none_iff, lincomb, List.length_zipWith]
          rw [List.getElem?_eq_none_iff] at hn1
          omega
        left
        refine ⟨?_, ?_, ?_⟩
        · simp [backStep, hc1, hn1]
        · simp [backStep, hc2, hn2]
        · simp [backStep, hcc, hnc]
      | some n1 =>
        have hnlt1 : j + 1 < ds1.length := by
          rcases List.getElem?_eq_some_iff.mp hn1 with ⟨hb, -⟩
          exact hb
        have hnlt2 : j + 1 < ds2.length := by omega
        obtain ⟨n2, hn2⟩ : ∃ y, ds2[j + 1]? = some y := by
          rw [List.getElem?_eq_getElem hnlt2]
          exact ⟨_, rfl⟩
        have hnc : (lincomb al be ds1 ds2)[j + 1]? = some (al * n1 + be * n2) := by
          rw [lincomb, List.getElem?_zipWith, hn1, hn2]
        have s1 : backStep ds1 (j, c) = some (ds1.set j (c1 - c * n1)) := by
          simp [backStep, hc1, hn1]
        have s2 : backStep ds2 (j, c) = some (ds2.set j (c2 - c * n2)) := by
          simp [backStep, hc2, hn2]
        have sc : backStep (lincomb al be ds1 ds2) (j, c) =
            some ((lincomb al be ds1 ds2).set j
              (al * c1 + be * c2 - c * (al * n1 + be * n2))) := by
          simp [backStep, hcc, hnc]
        rw [s1, s2, sc]
        simp only [Option.bind_eq_bind, Option.some_bind]
        have hset : (lincomb al be ds1 ds2).set j
            (al * c1 + be * c2 - c * (al * n1 + be * n2)) =
            lincomb al be (ds1.set j (c1 - c * n1)) (ds2.set j (c2 - c * n2)) := by
          rw [lincomb_set]
          congr 1
          ring
        rw [hset]
        exact ih (ds1.set j (c1 - c * n1)) (ds2.set j (c2 - c * n2)) (by simp [hlen])

theorem thomas_linear (al be : ℚ) (rows : List Row2) :
    thomas_algorithm (rows.map (projComb al be)) =
      Option.map₂ (lincomb al be) (thomas_algorithm (rows.map projFst))
        (thomas_algorithm (rows.map projSnd)) := by
  rw [thomas_algorithm, thomas_algorithm, thomas_algorithm,
    thomasForward, thomasForward, thomasForward]
  simp only [List.enum]
  have hf := fwd_linear al be rows 0 [] [] [] rfl
  have hnil : lincomb al be [] [] = [] := rfl
  rw [hnil] at hf
  rcases hf with ⟨h1, h2, h3⟩ | ⟨cs2, e1, e2, hlen, h1, h2, h3⟩
  · rw [h1, h2, h3]
    rfl
  · rw [h1, h2, h3]
    simp only [Option.bind_eq_bind, Option.some_bind]
    have hb := back_linear al be ((List.enumFrom 0 cs2).reverse) e1 e2 hlen
    rcases hb with ⟨b1, b2, b3⟩ | ⟨f1, f2, hflen, b1, b2, b3⟩
    · rw [b1, b2, b3]
      rfl
    · rw [b1, b2, b3]
      rfl

theorem ode_rows_eq_projComb (A B C : ℚ → ℚ) (a b lo : ℚ) (n : ℕ) (dx : ℚ) :
    ode_rows A B C a b lo n dx =
      (odeRows2 A B C lo n dx).map (projComb a b) := by
  rw [ode_rows, odeRows2, List.map_map]
  apply List.map_congr_left
  intro k hk
  by_cases he1 : k = 1
  · subst he1
    simp only [Function.comp_apply, projComb, eq_self_iff_true, if_true, Prod.mk.injEq]
    repeat' apply And.intro
    all_goals first | trivial | ring
  · by_cases hen : k = n
    · subst hen
      simp only [Function.comp_apply, projComb, if_neg he1, eq_self_iff_true, if_true,
        Prod.mk.injEq]
      repeat' apply And.intro
      all_goals first | trivial | ring
    · simp only [Function.comp_apply, projComb, if_neg he1, if_neg hen, Prod.mk.injEq]
      repeat' apply And.intro
      all_goals first | trivial | ring

theorem ode_rows_eq_projFst (A B C : ℚ → ℚ) (lo : ℚ) (n : ℕ) (dx : ℚ) :
    ode_rows A B C 1 0 lo n dx = (odeRows2 A B C lo n dx).map projFst := by
  rw [ode_rows, odeRows2, List.map_map]
  apply List.map_congr_left
  intro k hk
  by_cases he1 : k = 1
  · subst he1
    simp only [Function.comp_apply, projFst, eq_self_iff_true, if_true, Prod.mk.injEq]
    repeat' apply And.intro
    all_goals first | trivial | ring
  · by_cases hen : k = n
    · subst hen
      simp only [Function.comp_apply, projFst, if_neg he1, eq_self_iff_true, if_true,
        Prod.mk.injEq]
      repeat' apply And.intro
      all_goals first | trivial | ring
    · simp only [Function.comp_apply, projFst, if_neg he1, if_neg hen, Prod.mk.injEq]
      repeat' apply And.intro
      all_goals first | trivial | ring

theorem ode_rows_eq_projSnd (A B C : ℚ → ℚ) (lo : ℚ) (n : ℕ) (dx : ℚ) :
    ode_rows A B C 0 1 lo n dx = (odeRows2 A B C lo n dx).map projSnd := by
  rw [ode_rows, odeRows2, List.map_map]
  apply List.map_congr_left
  intro k hk
  by_cases he1 : k = 1
  · subst he1
    simp only [Function.comp_apply, projSnd, eq_self_iff_true, if_true, Prod.mk.injEq]
    repeat' apply And.intro
    all_goals first | trivial | ring
  · by_cases hen : k = n
    · subst hen
      simp only [Function.comp_apply, projSnd, if_neg he1, eq_self_iff_true, if_true,
        Prod.mk.injEq]
      repeat' apply And.intro
      all_goals first | trivial | ring
    · simp only [Function.comp_apply, projSnd, if_neg he1, if_neg hen, Prod.mk.injEq]
      repeat' apply And.intro
      all_goals first | trivial | ring

/-- Claim C6: for every fixed A, B, C, x_min, x_max and num_steps, and all
boundary values α, β, solve_ode(…, α, β) equals the componentwise linear
combination α·solve_ode(…, 1, 0) + β·solve_ode(…, 0, 1).  The equation holds
for every num_steps, including the degenerate ones where all three runs fail
identically. -/
theorem solve_ode_linear_in_boundary_values (A B C : ℚ → ℚ) (al be lo hi : ℚ)
    (n : ℕ) :
    solve_ode A B C al be lo hi n =
      Option.map₂ (lincomb al be) (solve_ode A B C 1 0 lo hi n)
        (solve_ode A B C 0 1 lo hi n) := by
  rw [solve_ode, solve_ode, solve_ode, ode_rows_eq_projComb, ode_rows_eq_projFst,
    ode_rows_eq_projSnd, thomas_linear]
